import Mathlib
set_option linter.unusedVariables false
/-!
Shallow embedding of the text-renderer core of this repository
(src/main.py `text_to_image` and helpers; src/utils/image_utils.py variants).

Text is modelled as `List Char`.  Glyph metrics are parameters, following the
spec's "simple advance-width summation" metrics model:
a per-character advance width `w : Style → Char → Nat` (string width is the sum
of its characters' widths) and a per-string line height
`Hf : Style → List Char → Nat` (the bounding-box height of a run's text).
-/

inductive Style where
  | normal
  | bold
  deriving DecidableEq, Repr
structure Run where
  text : List Char
  style : Style
  deriving DecidableEq, Repr
/-- An entry of `processed_lines` in src/main.py: either one of the placeholder
lines `[{"type": "divider"}]` / `[{"type": "empty"}]`, or a list of run dicts.
The same type is also used for the classification of a logical line before
wrapping (where `content` then holds the parsed, unwrapped runs). -/
inductive PLine where
  | empty
  | divider
  | content (runs : List Run)
  deriving DecidableEq, Repr
/-- The `no_start_chars` set of src/main.py lines 140-168 (identical to
`NO_START_CHARS` in src/utils/image_utils.py), duplicates as in the source. -/
def no_start_chars : List Char :=
  [',', '.', '!', '?', ';', ':', '}', ']', ')', '>',
   '》', '】', '』', '，', '。', '！', '？', '；', '：',
   '”', '’', '）', '』', '】', '〉', '》', '、']
/-! ### Markup parser, src/main.py lines 170-178

`parse_line_to_runs` splits a line with `re.split(r"(\*\*.*?\*\*)", line)`,
then classifies every part: a part that starts and ends with `**` becomes a
bold run holding `part[2:-2]`, any other non-empty part a normal run; runs with
empty text are filtered out.

`findClose cs` finds the earliest occurrence of `**` in `cs` and returns the
text before it and the text after it.  `findBold cs` finds the leftmost,
lazily-extended match of `\*\*.*?\*\*` and returns (prefix, inner, rest).
`splitParts` reproduces the list of parts of `re.split` (gaps and matches, in
order, the matches rebuilt with their delimiters as `re.split` returns them). -/

def findClose : List Char → Option (List Char × List Char)
  | [] => none
  | c :: rest =>
    if c = '*' ∧ rest.head? = some '*' then some ([], rest.tail)
    else (findClose rest).map fun pr => (c :: pr.1, pr.2)
def findBold : List Char → Option (List Char × List Char × List Char)
  | [] => none
  | c :: rest =>
    if c = '*' ∧ rest.head? = some '*' then
      match findClose rest.tail with
      | some (inner, r2) => some ([], inner, r2)
      | none => (findBold rest).map fun pir => (c :: pir.1, pir.2.1, pir.2.2)
    else (findBold rest).map fun pir => (c :: pir.1, pir.2.1, pir.2.2)
def splitPartsAux : Nat → List Char → List (List Char)
  | 0, _ => []
  | fuel + 1, cs =>
    match findBold cs with
    | none => [cs]
    | some (pre, inner, rest) =>
      pre :: ('*' :: '*' :: (inner ++ ['*', '*'])) :: splitPartsAux fuel rest
def splitParts (cs : List Char) : List (List Char) :=
  splitPartsAux (cs.length + 1) cs
def startsWithStars : List Char → Bool
  | c :: c2 :: _ => c = '*' && c2 = '*'
  | _ => false
def endsWithStars (p : List Char) : Bool := startsWithStars p.reverse
/-- One iteration of the part loop of `parse_line_to_runs`: the
`startswith("**") and endswith("**")` test, the `part[2:-2]` slice, the
`elif part` test, and the final empty-text filter. -/
def classifyPart (p : List Char) : Option Run :=
  if startsWithStars p ∧ endsWithStars p then
    if ((p.drop 2).dropLast).dropLast = [] then none
    else some ⟨((p.drop 2).dropLast).dropLast, Style.bold⟩
  else if p = [] then none else some ⟨p, Style.normal⟩
def parse_line_to_runs (cs : List Char) : List Run :=
  (splitParts cs).filterMap classifyPart
/-! ### Logical-line classification, src/main.py lines 249-255 -/

/-- Python `str.strip()` on the characters of a line (whitespace trim on both
ends). -/
def pyStrip (cs : List Char) : List Char :=
  ((cs.dropWhile Char.isWhitespace).reverse.dropWhile Char.isWhitespace).reverse
def isDash (c : Char) : Bool := c = '-' || c = '—'
/-- Classification of one logical line: `if not line.strip() and line == "":`
empty placeholder; `if len(line.strip()) >= 3 and set(line.strip()) <= {"-","—"}:`
divider placeholder; otherwise content with the parsed runs. -/
def classify_line (line : List Char) : PLine :=
  if pyStrip line = [] ∧ line = [] then PLine.empty
  else if 3 ≤ (pyStrip line).length ∧ (pyStrip line).all isDash = true then PLine.divider
  else PLine.content (parse_line_to_runs line)
/-! ### Line-wrapping engine, src/main.py lines 183-245

The wrapper first merges adjacent runs of equal style, then walks the merged
runs character by character, packing characters into the current physical line
(`current_line`, with its accumulated width `current_width`).  When a character
would overflow `max_content_width` it either performs the forbidden-leader
pull-back (`continue` re-processes the same character) or closes the line.
The `while` loop with `continue` is modelled with a per-character fuel counter
`wrapCharLoop`; each `continue` consumes one unit of fuel, and `none` means the
source loop runs forever on this character. -/

def sumW (w : Style → Char → Nat) (st : Style) (cs : List Char) : Nat :=
  (cs.map (w st)).sum
/-- `get_run_width` of src/main.py line 180, in the advance-width-sum model. -/
def get_run_width (w : Style → Char → Nat) (r : Run) : Nat := sumW w r.style r.text
def lineWidth (w : Style → Char → Nat) (l : List Run) : Nat :=
  (l.map (get_run_width w)).sum
/-- Adjacent same-style run merging, src/main.py lines 188-196 (the source folds
into `merged_runs[-1]`; `mergeAux acc` carries that last merged run). -/
def mergeAux (acc : Run) : List Run → List Run
  | [] => [acc]
  | r :: rs =>
    if r.style = acc.style then mergeAux ⟨acc.text ++ r.text, acc.style⟩ rs
    else acc :: mergeAux r rs
def mergeRuns : List Run → List Run
  | [] => []
  | r :: rs => mergeAux r rs
structure WrapState where
  lines : List (List Run)
  cur : List Run
  curW : Nat
  deriving DecidableEq, Repr
/-- src/main.py lines 236-239: extend the last run of the current line if its
style matches, otherwise append a fresh single-character run. -/
def addChar (st : Style) (c : Char) : List Run → List Run
  | [] => [⟨[c], st⟩]
  | r :: rs =>
    if rs = [] then
      if r.style = st then [⟨r.text ++ [c], r.style⟩] else [r, ⟨[c], st⟩]
    else r :: addChar st c rs
/-- src/main.py lines 210-227: scan `current_line` from the end for the last
run with non-empty text; remove its last character (the shortened run and any
trailing empty runs stay in the emitted line) and return the emitted line, the
pulled character and its style.  `none` iff every run's text is empty. -/
def pullBackAux : List Run → Option (List Run × Char × Style)
  | [] => none
  | r :: rs =>
    match pullBackAux rs with
    | some (l, p, pst) => some (r :: l, p, pst)
    | none =>
      match r.text.getLast? with
      | some p => some (⟨r.text.dropLast, r.style⟩ :: rs, p, r.style)
      | none => none
def placeChar (st : Style) (c : Char) (cw : Nat) (s : WrapState) : WrapState :=
  ⟨s.lines, addChar st c s.cur, s.curW + cw⟩
/-- One character of the `while i < len(text)` loop of src/main.py lines
203-241, including the pull-back `continue` (which re-processes the same
character against the re-seeded line and consumes one unit of fuel). -/
def wrapCharLoop (w : Style → Char → Nat) (maxW : Nat) (st : Style) (c : Char) :
    Nat → WrapState → Option WrapState
  | 0, _ => none
  | fuel + 1, s =>
    if s.curW + w st c > maxW then
      if c ∈ no_start_chars ∧ s.cur ≠ [] then
        match pullBackAux s.cur with
        | some (l, p, pst) =>
          wrapCharLoop w maxW st c fuel ⟨s.lines ++ [l], [⟨[p], pst⟩], w pst p⟩
        | none =>
          some (placeChar st c (w st c) ⟨s.lines ++ [s.cur], [], 0⟩)
      else some (placeChar st c (w st c) ⟨s.lines ++ [s.cur], [], 0⟩)
    else some (placeChar st c (w st c) s)
def wrapText (w : Style → Char → Nat) (maxW fuel : Nat) (st : Style) :
    List Char → WrapState → Option WrapState
  | [], s => some s
  | c :: cs, s =>
    match wrapCharLoop w maxW st c fuel s with
    | none => none
    | some s1 => wrapText w maxW fuel st cs s1
def wrapRuns (w : Style → Char → Nat) (maxW fuel : Nat) :
    List Run → WrapState → Option WrapState
  | [], s => some s
  | r :: rs, s =>
    match wrapText w maxW fuel r.style r.text s with
    | none => none
    | some s1 => wrapRuns w maxW fuel rs s1
/-- `wrap_line` of src/main.py lines 183-245.  `some lines` is the returned
list of physical lines; `none` means the source function does not terminate
within `fuel` pull-back iterations on some character. -/
def wrap_line (w : Style → Char → Nat) (maxW fuel : Nat) (runs : List Run) :
    Option (List (List Run)) :=
  match wrapRuns w maxW fuel (mergeRuns runs) ⟨[], [], 0⟩ with
  | none => none
  | some s => some (if s.cur = [] then s.lines else s.lines ++ [s.cur])
/-! ### Text preprocessing, src/main.py lines 247-259 -/

/-- `text_content.split("\n")`: split on newlines, keeping empty entries. -/
def splitNL : List Char → List (List Char)
  | [] => [[]]
  | c :: rest =>
    if c = '\n' then [] :: splitNL rest
    else
      match splitNL rest with
      | [] => [[c]]
      | l :: ls => (c :: l) :: ls
def processOne (w : Style → Char → Nat) (maxW fuel : Nat) (line : List Char) :
    Option (List PLine) :=
  match classify_line line with
  | PLine.empty => some [PLine.empty]
  | PLine.divider => some [PLine.divider]
  | PLine.content rs =>
    match wrap_line w maxW fuel rs with
    | none => none
    | some ls => some (ls.map PLine.content)
def processList (w : Style → Char → Nat) (maxW fuel : Nat) :
    List (List Char) → Option (List PLine)
  | [] => some []
  | l :: ls =>
    match processOne w maxW fuel l, processList w maxW fuel ls with
    | some u, some rest => some (u ++ rest)
    | _, _ => none
/-- The `processed_lines` sequence built by src/main.py lines 247-259. -/
def processedLines (w : Style → Char → Nat) (maxW fuel : Nat) (text : List Char) :
    Option (List PLine) :=
  processList w maxW fuel (splitNL text)
/-! ### Layout calculator and renderer y-advances, src/main.py lines 261-327 -/

/-- `get_line_height` of src/main.py lines 262-270: max bounding-box height over
the line's runs, starting from 0. -/
def get_line_height (Hf : Style → List Char → Nat) (l : List Run) : Nat :=
  l.foldl (fun m r => max m (Hf r.style r.text)) 0
/-- The spacing-suppression test of src/main.py lines 277 and 309:
`i > 0 and "type" in processed_lines[i-1][0] and processed_lines[i-1][0]["type"] != "empty"`.
Run dicts of a content line have no "type" key, so a content predecessor yields
`false`; only a divider predecessor passes.  (For an empty content line `[]`
the Python expression would raise IndexError, but the pipeline never produces a
divider preceded by an empty content line.) -/
def prevCheckMain : Option PLine → Bool
  | some PLine.divider => true
  | _ => false
/-- The corresponding test of src/utils/image_utils.py lines 181 and 237:
`i > 0 and not is_empty_line(processed_lines[i-1])` — true for any predecessor
that is not the empty placeholder. -/
def prevCheckUtils : Option PLine → Bool
  | none => false
  | some PLine.empty => false
  | some _ => true
/-- The `total_height` accumulation of src/main.py lines 272-286, written as a
recursion carrying the previous line; `rest = []` is `is_last_line`. -/
def totalHeightRows (Hf : Style → List Char → Nat) (sp mg : Nat) :
    Option PLine → List PLine → Int
  | _, [] => 0
  | prev, l :: rest =>
    (match l with
     | PLine.divider =>
       (if prevCheckMain prev then -(sp : Int) else 0)
       + (get_line_height Hf [⟨['─'], Style.normal⟩] : Int) + 2 * (mg : Int)
     | PLine.empty => (get_line_height Hf [⟨[' '], Style.normal⟩] : Int)
     | PLine.content rs => (get_line_height Hf rs : Int))
    + (if rest = [] then 0 else (sp : Int))
    + totalHeightRows Hf sp mg (some l) rest
def totalHeight (Hf : Style → List Char → Nat) (sp mg : Nat) (pls : List PLine) : Int :=
  totalHeightRows Hf sp mg none pls
/-- The y-advances of the drawing pass, src/main.py lines 303-327: per divider
`current_y -= spacing` (same predecessor test), `+= margin`, then
`+= line_height + margin`; per other line `+= line_height`; plus the inter-line
spacing when not last.  The sum of all applied y-deltas. -/
def drawAdvanceRows (Hf : Style → List Char → Nat) (sp mg : Nat) :
    Option PLine → List PLine → Int
  | _, [] => 0
  | prev, l :: rest =>
    (match l with
     | PLine.divider =>
       (if prevCheckMain prev then -(sp : Int) else 0)
       + (mg : Int) + (get_line_height Hf [⟨['─'], Style.normal⟩] : Int) + (mg : Int)
     | PLine.empty => (get_line_height Hf [⟨[' '], Style.normal⟩] : Int)
     | PLine.content rs => (get_line_height Hf rs : Int))
    + (if rest = [] then 0 else (sp : Int))
    + drawAdvanceRows Hf sp mg (some l) rest
def drawAdvance (Hf : Style → List Char → Nat) (sp mg : Nat) (pls : List PLine) : Int :=
  drawAdvanceRows Hf sp mg none pls
/-- The `total_height` accumulation of src/utils/image_utils.py lines 176-191
(`_calculate_layout`), which differs from src/main.py only in the predecessor
test. -/
def totalHeightUtilsRows (Hf : Style → List Char → Nat) (sp mg : Nat) :
    Option PLine → List PLine → Int
  | _, [] => 0
  | prev, l :: rest =>
    (match l with
     | PLine.divider =>
       (if prevCheckUtils prev then -(sp : Int) else 0)
       + (get_line_height Hf [⟨['─'], Style.normal⟩] : Int) + 2 * (mg : Int)
     | PLine.empty => (get_line_height Hf [⟨[' '], Style.normal⟩] : Int)
     | PLine.content rs => (get_line_height Hf rs : Int))
    + (if rest = [] then 0 else (sp : Int))
    + totalHeightUtilsRows Hf sp mg (some l) rest
def totalHeightUtils (Hf : Style → List Char → Nat) (sp mg : Nat) (pls : List PLine) : Int :=
  totalHeightUtilsRows Hf sp mg none pls
/-! ### Concrete metric assignments used in closed statements -/

def wOne : Style → Char → Nat := fun _ _ => 1
def wSix : Style → Char → Nat := fun _ _ => 6
def wFour : Style → Char → Nat := fun _ _ => 4
def hTen : Style → List Char → Nat := fun _ _ => 10
/-! ### Helper notions: the character stream of a line -/

/-- The concatenated text of a list of runs. -/
def lineChars (l : List Run) : List Char := (l.map Run.text).flatten
/-- The concatenated text of a list of runs, each character tagged with its
run's style. -/
def lineSChars (l : List Run) : List (Style × Char) :=
  (l.map fun r => r.text.map fun c => (r.style, c)).flatten
/-- All characters accounted for by a wrap state: the emitted lines followed by
the current line. -/
def flatSChars (s : WrapState) : List (Style × Char) :=
  (s.lines.map lineSChars).flatten ++ lineSChars s.cur
/-- Non-termination of `wrap_line` on a run sequence at a width assignment:
no amount of fuel (pull-back loop iterations) makes the call return. -/
def wrapDiverges (w : Style → Char → Nat) (maxW : Nat) (runs : List Run) : Prop :=
  ∀ fuel, wrap_line w maxW fuel runs = none
/-! ### The forbidden-leader invariant of the wrapper -/

/-- The first character (if any) of a physical line is not a forbidden leading
character. -/
def goodStart (l : List Run) : Prop :=
  ∀ c, (lineChars l).head? = some c → c ∉ no_start_chars
/-- Two adjacent characters are not both forbidden leading characters. -/
def okPair (a b : Char) : Prop := ¬(a ∈ no_start_chars ∧ b ∈ no_start_chars)
instance (a b : Char) : Decidable (okPair a b) :=
  inferInstanceAs (Decidable ¬(a ∈ no_start_chars ∧ b ∈ no_start_chars))
/-- The wrap-state invariant behind the forbidden-leader property: all runs of
the current line are non-empty, every emitted line but the first starts well,
the current line starts well once a line has been emitted, the current line is
non-empty once a line has been emitted, and an empty current line has width 0. -/
def WrapInv (s : WrapState) : Prop :=
  (∀ r ∈ s.cur, r.text ≠ []) ∧
  (∀ l ∈ s.lines.drop 1, goodStart l) ∧
  (s.lines ≠ [] → goodStart s.cur) ∧
  (s.lines ≠ [] → s.cur ≠ []) ∧
  (s.cur = [] → s.curW = 0)
def flatChars (s : WrapState) : List Char := (flatSChars s).map Prod.snd
/-! ### Round-trip of plain text through parsing and wrapping -/

/-- The line contains two adjacent asterisks somewhere. -/
def hasDoubleStar : List Char → Bool
  | [] => false
  | c :: rest => if c = '*' ∧ rest.head? = some '*' then true else hasDoubleStar rest
/-! ### Claim-specific concrete inputs -/

def wThree : Style → Char → Nat := fun _ _ => 3
def c1Input : List Char := ['A', '\n', '-', '-', '-', '-', '-', '-', '\n', 'B']
def c1Lines : List PLine :=
  [PLine.content [⟨['A'], Style.normal⟩], PLine.divider,
   PLine.content [⟨['B'], Style.normal⟩]]
def c3Input : List Char := ['A', '\n', ',', 'B']

/-! ### Theorems -/

theorem lineSChars_nil : lineSChars [] = [] := rfl

theorem lineSChars_cons (r : Run) (rs : List Run) :
    lineSChars (r :: rs) = (r.text.map fun c => (r.style, c)) ++ lineSChars rs := by
  simp [lineSChars]

theorem lineSChars_append (l1 l2 : List Run) :
    lineSChars (l1 ++ l2) = lineSChars l1 ++ lineSChars l2 := by
  simp [lineSChars]

theorem lineChars_eq_map_snd (l : List Run) :
    lineChars l = (lineSChars l).map Prod.snd := by
  induction l with
  | nil => rfl
  | cons r rs ih =>
    simp only [lineChars, lineSChars, List.map_cons, List.flatten_cons, List.map_append,
      List.map_map] at *
    rw [ih]
    congr 1
    simp

theorem lineChars_append (l1 l2 : List Run) :
    lineChars (l1 ++ l2) = lineChars l1 ++ lineChars l2 := by
  simp [lineChars]

theorem lineWidth_eq_schars (w : Style → Char → Nat) (l : List Run) :
    lineWidth w l = ((lineSChars l).map fun p => w p.1 p.2).sum := by
  induction l with
  | nil => rfl
  | cons r rs ih =>
    simp only [lineWidth, lineSChars, List.map_cons, List.flatten_cons, List.map_append,
      List.sum_append, List.map_map] at *
    rw [List.sum_cons, ih]
    rfl

theorem addChar_nil (st : Style) (c : Char) : addChar st c [] = [⟨[c], st⟩] := rfl

theorem addChar_singleton (st : Style) (c : Char) (r : Run) :
    addChar st c [r] =
      if r.style = st then [⟨r.text ++ [c], r.style⟩] else [r, ⟨[c], st⟩] := rfl

theorem addChar_cons₂ (st : Style) (c : Char) (r r2 : Run) (rs : List Run) :
    addChar st c (r :: r2 :: rs) = r :: addChar st c (r2 :: rs) := rfl

theorem addChar_schars (st : Style) (c : Char) :
    ∀ (l : List Run), lineSChars (addChar st c l) = lineSChars l ++ [(st, c)]
  | [] => by
    rw [addChar_nil, lineSChars_cons, lineSChars_nil]
    simp [lineSChars]
  | [r] => by
    rw [addChar_singleton]
    by_cases hs : r.style = st
    · rw [if_pos hs, lineSChars_cons, lineSChars_cons, lineSChars_nil]
      simp [hs]
    · rw [if_neg hs, lineSChars_cons, lineSChars_cons, lineSChars_cons, lineSChars_nil]
      simp
  | r :: r2 :: rs => by
    rw [addChar_cons₂, lineSChars_cons, lineSChars_cons, addChar_schars st c (r2 :: rs),
      List.append_assoc]

theorem addChar_ne_nil (st : Style) (c : Char) (l : List Run) :
    addChar st c l ≠ [] := by
  cases l with
  | nil => rw [addChar_nil]; simp
  | cons r rs =>
    cases rs with
    | nil =>
      rw [addChar_singleton]
      by_cases hs : r.style = st
      · rw [if_pos hs]; simp
      · rw [if_neg hs]; simp
    | cons r2 rs2 => rw [addChar_cons₂]; simp

theorem addChar_runs_ne_nil (st : Style) (c : Char) (l : List Run) :
    (∀ r ∈ l, r.text ≠ []) → ∀ r ∈ addChar st c l, r.text ≠ [] := by
  induction l with
  | nil =>
    intro h r hr
    rw [addChar_nil] at hr
    simp at hr
    simp [hr]
  | cons q rs ih =>
    intro h r hr
    cases rs with
    | nil =>
      rw [addChar_singleton] at hr
      by_cases hs : q.style = st
      · rw [if_pos hs] at hr
        simp at hr
        rw [hr]
        simp
      · rw [if_neg hs] at hr
        simp at hr
        rcases hr with hr | hr
        · rw [hr]; exact h q (by simp)
        · rw [hr]; simp
    | cons q2 rs2 =>
      rw [addChar_cons₂] at hr
      simp at hr
      rcases hr with hr | hr
      · rw [hr]; exact h q (by simp)
      · exact ih (fun x hx => h x (by simp [hx])) r hr

theorem getLast?_concat_self {α : Type} : ∀ {cs : List α} {p : α},
    cs.getLast? = some p → cs.dropLast ++ [p] = cs
  | [], p, h => by simp at h
  | [x], p, h => by
    simp at h
    simp [h]
  | x :: y :: t, p, h => by
    rw [List.getLast?_cons_cons] at h
    have h2 := getLast?_concat_self h
    simp only [List.dropLast_cons₂, List.cons_append, h2]

theorem getLast?_none_nil {α : Type} : ∀ {cs : List α}, cs.getLast? = none → cs = []
  | [], _ => rfl
  | [x], h => by simp at h
  | x :: y :: t, h => by
    rw [List.getLast?_cons_cons] at h
    exact absurd (getLast?_none_nil h) (by simp)

theorem pullBackAux_eq_none : ∀ {l : List Run},
    pullBackAux l = none → ∀ r ∈ l, r.text = [] := by
  intro l
  induction l with
  | nil => simp
  | cons r rs ih =>
    intro h q hq
    simp only [pullBackAux] at h
    rcases h2 : pullBackAux rs with _ | pr
    · rw [h2] at h
      rcases h3 : r.text.getLast? with _ | p
      · rcases List.mem_cons.mp hq with hq | hq
        · subst hq; exact getLast?_none_nil h3
        · exact ih h2 q hq
      · rw [h3] at h; cases h
    · rw [h2] at h
      rcases pr with ⟨l2, p, pst⟩
      cases h

theorem pullBackAux_isSome {l : List Run} (h1 : l ≠ [])
    (h2 : ∀ r ∈ l, r.text ≠ []) : pullBackAux l ≠ none := by
  intro hn
  cases l with
  | nil => exact h1 rfl
  | cons r rs => exact h2 r (by simp) (pullBackAux_eq_none hn r (by simp))

theorem lineSChars_eq_nil_of_all_nil : ∀ {l : List Run},
    (∀ r ∈ l, r.text = []) → lineSChars l = []
  | [], _ => rfl
  | r :: rs, h => by
    rw [lineSChars_cons, h r (by simp)]
    simp only [List.map_nil, List.nil_append]
    exact lineSChars_eq_nil_of_all_nil (fun q hq => h q (by simp [hq]))

theorem pullBackAux_schars : ∀ {l : List Run} {l' : List Run} {p : Char} {pst : Style},
    pullBackAux l = some (l', p, pst) → lineSChars l' ++ [(pst, p)] = lineSChars l := by
  intro l
  induction l with
  | nil => intro l' p pst h; cases h
  | cons r rs ih =>
    intro l' p pst h
    simp only [pullBackAux] at h
    rcases h2 : pullBackAux rs with _ | ⟨l2, p2, pst2⟩
    · rw [h2] at h
      rcases h3 : r.text.getLast? with _ | q
      · rw [h3] at h; cases h
      · rw [h3] at h
        cases h
        have h4 := getLast?_concat_self h3
        rw [lineSChars_cons, lineSChars_cons,
          lineSChars_eq_nil_of_all_nil (pullBackAux_eq_none h2)]
        simp only [List.append_nil]
        conv_rhs => rw [← h4]
        rw [List.map_append]
        rfl
    · rw [h2] at h
      cases h
      rw [lineSChars_cons, lineSChars_cons, List.append_assoc, ih h2]

/-! ### Conservation of the character stream through the wrapper -/

theorem flatSChars_placeChar (st : Style) (c : Char) (cw : Nat) (s : WrapState) :
    flatSChars (placeChar st c cw s) = flatSChars s ++ [(st, c)] := by
  simp [flatSChars, placeChar, addChar_schars, List.append_assoc]

theorem flatSChars_emit (s : WrapState) :
    flatSChars ⟨s.lines ++ [s.cur], [], 0⟩ = flatSChars s := by
  simp [flatSChars, lineSChars_nil]

theorem flatSChars_pull (s : WrapState) (l : List Run) (p : Char) (pst : Style) (cw : Nat)
    (h : pullBackAux s.cur = some (l, p, pst)) :
    flatSChars ⟨s.lines ++ [l], [⟨[p], pst⟩], cw⟩ = flatSChars s := by
  have h2 := pullBackAux_schars h
  simp only [flatSChars, List.map_append, List.flatten_append, List.map_cons, List.map_nil,
    List.flatten_cons, List.flatten_nil, List.append_nil, lineSChars_cons, lineSChars_nil]
  rw [List.append_assoc]
  congr 1

theorem wrapCharLoop_flat (w : Style → Char → Nat) (maxW : Nat) (st : Style) (c : Char) :
    ∀ (fuel : Nat) (s s' : WrapState),
      wrapCharLoop w maxW st c fuel s = some s' →
      flatSChars s' = flatSChars s ++ [(st, c)]
  | 0, s, s', h => by cases h
  | fuel + 1, s, s', h => by
    simp only [wrapCharLoop] at h
    by_cases h1 : s.curW + w st c > maxW
    · rw [if_pos h1] at h
      by_cases h2 : c ∈ no_start_chars ∧ s.cur ≠ []
      · rw [if_pos h2] at h
        rcases h3 : pullBackAux s.cur with _ | ⟨l, p, pst⟩
        · rw [h3] at h
          cases h
          rw [flatSChars_placeChar, flatSChars_emit]
        · rw [h3] at h
          rw [wrapCharLoop_flat w maxW st c fuel _ s' h,
            flatSChars_pull s l p pst (w pst p) h3]
      · rw [if_neg h2] at h
        cases h
        rw [flatSChars_placeChar, flatSChars_emit]
    · rw [if_neg h1] at h
      cases h
      rw [flatSChars_placeChar]

theorem wrapText_flat (w : Style → Char → Nat) (maxW fuel : Nat) (st : Style) :
    ∀ (cs : List Char) (s s' : WrapState),
      wrapText w maxW fuel st cs s = some s' →
      flatSChars s' = flatSChars s ++ cs.map fun c => (st, c)
  | [], s, s', h => by
    cases h
    simp
  | c :: cs, s, s', h => by
    simp only [wrapText] at h
    rcases h1 : wrapCharLoop w maxW st c fuel s with _ | s1
    · rw [h1] at h; cases h
    · rw [h1] at h
      rw [wrapText_flat w maxW fuel st cs s1 s' h, wrapCharLoop_flat w maxW st c fuel s s1 h1]
      simp

theorem wrapRuns_flat (w : Style → Char → Nat) (maxW fuel : Nat) :
    ∀ (rs : List Run) (s s' : WrapState),
      wrapRuns w maxW fuel rs s = some s' →
      flatSChars s' = flatSChars s ++ lineSChars rs
  | [], s, s', h => by
    cases h
    simp [lineSChars_nil]
  | r :: rs, s, s', h => by
    simp only [wrapRuns] at h
    rcases h1 : wrapText w maxW fuel r.style r.text s with _ | s1
    · rw [h1] at h; cases h
    · rw [h1] at h
      rw [wrapRuns_flat w maxW fuel rs s1 s' h, wrapText_flat w maxW fuel r.style r.text s s1 h1,
        lineSChars_cons, List.append_assoc]

theorem mergeAux_schars : ∀ (rs : List Run) (acc : Run),
    lineSChars (mergeAux acc rs) = (acc.text.map fun c => (acc.style, c)) ++ lineSChars rs
  | [], acc => by
    simp [mergeAux, lineSChars_cons, lineSChars_nil]
  | r :: rs, acc => by
    simp only [mergeAux]
    by_cases hs : r.style = acc.style
    · rw [if_pos hs, mergeAux_schars rs ⟨acc.text ++ r.text, acc.style⟩]
      rw [lineSChars_cons, hs]
      simp [List.append_assoc]
    · rw [if_neg hs, lineSChars_cons, mergeAux_schars rs r, lineSChars_cons]

theorem mergeRuns_schars (runs : List Run) :
    lineSChars (mergeRuns runs) = lineSChars runs := by
  cases runs with
  | nil => rfl
  | cons r rs =>
    simp only [mergeRuns]
    rw [mergeAux_schars rs r, lineSChars_cons]

theorem flatSChars_start : flatSChars ⟨[], [], 0⟩ = [] := rfl

theorem wrap_line_schars (w : Style → Char → Nat) (maxW fuel : Nat) (runs : List Run)
    (ls : List (List Run)) (h : wrap_line w maxW fuel runs = some ls) :
    (ls.map lineSChars).flatten = lineSChars runs := by
  unfold wrap_line at h
  rcases h1 : wrapRuns w maxW fuel (mergeRuns runs) ⟨[], [], 0⟩ with _ | s
  · rw [h1] at h; cases h
  · rw [h1] at h
    cases h
    have h2 := wrapRuns_flat w maxW fuel (mergeRuns runs) _ _ h1
    rw [mergeRuns_schars, flatSChars_start, List.nil_append] at h2
    by_cases hc : s.cur = []
    · rw [if_pos hc]
      rw [← h2]
      simp [flatSChars, hc, lineSChars_nil]
    · rw [if_neg hc]
      rw [← h2]
      simp [flatSChars]

/-! ### Width accounting through the wrapper -/

theorem lineWidth_addChar (w : Style → Char → Nat) (st : Style) (c : Char) (l : List Run) :
    lineWidth w (addChar st c l) = lineWidth w l + w st c := by
  rw [lineWidth_eq_schars w (addChar st c l), addChar_schars, List.map_append, List.sum_append,
    ← lineWidth_eq_schars]
  simp

theorem lineWidth_pull (w : Style → Char → Nat) {cur l : List Run} {p : Char} {pst : Style}
    (h : pullBackAux cur = some (l, p, pst)) :
    lineWidth w l + w pst p = lineWidth w cur := by
  rw [lineWidth_eq_schars w l, lineWidth_eq_schars w cur, ← pullBackAux_schars h]
  simp

theorem lineWidth_single (w : Style → Char → Nat) (p : Char) (pst : Style) :
    lineWidth w [⟨[p], pst⟩] = w pst p := by
  simp [lineWidth, get_run_width, sumW]

theorem wrapCharLoop_width (w : Style → Char → Nat) (maxW : Nat) (st : Style) (c : Char)
    (hw : ∀ st2 c2, w st2 c2 ≤ maxW) :
    ∀ (fuel : Nat) (s s' : WrapState),
      wrapCharLoop w maxW st c fuel s = some s' →
      s.curW = lineWidth w s.cur → s.curW ≤ maxW →
      (∀ l ∈ s.lines, lineWidth w l ≤ maxW) →
      s'.curW = lineWidth w s'.cur ∧ s'.curW ≤ maxW ∧
        ∀ l ∈ s'.lines, lineWidth w l ≤ maxW
  | 0, s, s', h => by cases h
  | fuel + 1, s, s', h => by
    intro hW hB hL
    simp only [wrapCharLoop] at h
    by_cases h1 : s.curW + w st c > maxW
    · rw [if_pos h1] at h
      by_cases h2 : c ∈ no_start_chars ∧ s.cur ≠ []
      · rw [if_pos h2] at h
        rcases h3 : pullBackAux s.cur with _ | ⟨l, p, pst⟩
        · rw [h3] at h
          cases h
          refine ⟨?_, ?_, ?_⟩
          · simp [placeChar, addChar_nil, lineWidth_single]
          · simpa [placeChar] using hw st c
          · intro l2 hl2
            simp only [placeChar] at hl2
            rcases List.mem_append.mp hl2 with hl2 | hl2
            · exact hL l2 hl2
            · simp at hl2
              rw [hl2, ← hW]
              exact hB
        · rw [h3] at h
          apply wrapCharLoop_width w maxW st c hw fuel _ s' h
          · simp [lineWidth_single]
          · exact hw pst p
          · intro l2 hl2
            rcases List.mem_append.mp hl2 with hl2 | hl2
            · exact hL l2 hl2
            · simp at hl2
              rw [hl2]
              calc lineWidth w l ≤ lineWidth w l + w pst p := Nat.le_add_right _ _
                _ = lineWidth w s.cur := lineWidth_pull w h3
                _ = s.curW := hW.symm
                _ ≤ maxW := hB
      · rw [if_neg h2] at h
        cases h
        refine ⟨?_, ?_, ?_⟩
        · simp [placeChar, addChar_nil, lineWidth_single]
        · simpa [placeChar] using hw st c
        · intro l2 hl2
          simp only [placeChar] at hl2
          rcases List.mem_append.mp hl2 with hl2 | hl2
          · exact hL l2 hl2
          · simp at hl2
            rw [hl2, ← hW]
            exact hB
    · rw [if_neg h1] at h
      cases h
      refine ⟨?_, ?_, ?_⟩
      · simp [placeChar, lineWidth_addChar, hW]
      · simp only [placeChar]
        omega
      · simpa [placeChar] using hL

theorem wrapText_width (w : Style → Char → Nat) (maxW fuel : Nat) (st : Style)
    (hw : ∀ st2 c2, w st2 c2 ≤ maxW) :
    ∀ (cs : List Char) (s s' : WrapState),
      wrapText w maxW fuel st cs s = some s' →
      s.curW = lineWidth w s.cur → s.curW ≤ maxW →
      (∀ l ∈ s.lines, lineWidth w l ≤ maxW) →
      s'.curW = lineWidth w s'.cur ∧ s'.curW ≤ maxW ∧
        ∀ l ∈ s'.lines, lineWidth w l ≤ maxW
  | [], s, s', h => by
    intro hW hB hL
    cases h
    exact ⟨hW, hB, hL⟩
  | c :: cs, s, s', h => by
    intro hW hB hL
    simp only [wrapText] at h
    rcases h1 : wrapCharLoop w maxW st c fuel s with _ | s1
    · rw [h1] at h; cases h
    · rw [h1] at h
      rcases wrapCharLoop_width w maxW st c hw fuel s s1 h1 hW hB hL with ⟨hW1, hB1, hL1⟩
      exact wrapText_width w maxW fuel st hw cs s1 s' h hW1 hB1 hL1

theorem wrapRuns_width (w : Style → Char → Nat) (maxW fuel : Nat)
    (hw : ∀ st2 c2, w st2 c2 ≤ maxW) :
    ∀ (rs : List Run) (s s' : WrapState),
      wrapRuns w maxW fuel rs s = some s' →
      s.curW = lineWidth w s.cur → s.curW ≤ maxW →
      (∀ l ∈ s.lines, lineWidth w l ≤ maxW) →
      s'.curW = lineWidth w s'.cur ∧ s'.curW ≤ maxW ∧
        ∀ l ∈ s'.lines, lineWidth w l ≤ maxW
  | [], s, s', h => by
    intro hW hB hL
    cases h
    exact ⟨hW, hB, hL⟩
  | r :: rs, s, s', h => by
    intro hW hB hL
    simp only [wrapRuns] at h
    rcases h1 : wrapText w maxW fuel r.style r.text s with _ | s1
    · rw [h1] at h; cases h
    · rw [h1] at h
      rcases wrapText_width w maxW fuel r.style hw r.text s s1 h1 hW hB hL with ⟨hW1, hB1, hL1⟩
      exact wrapRuns_width w maxW fuel hw rs s1 s' h hW1 hB1 hL1

/-! ### Termination behaviour of the wrap loop -/

theorem wrapCharLoop_succ (w : Style → Char → Nat) (maxW : Nat) (st : Style) (c : Char)
    (fuel : Nat) (s : WrapState) :
    wrapCharLoop w maxW st c (fuel + 1) s =
      if s.curW + w st c > maxW then
        if c ∈ no_start_chars ∧ s.cur ≠ [] then
          match pullBackAux s.cur with
          | some (l, p, pst) =>
            wrapCharLoop w maxW st c fuel ⟨s.lines ++ [l], [⟨[p], pst⟩], w pst p⟩
          | none => some (placeChar st c (w st c) ⟨s.lines ++ [s.cur], [], 0⟩)
        else some (placeChar st c (w st c) ⟨s.lines ++ [s.cur], [], 0⟩)
      else some (placeChar st c (w st c) s) := rfl

/-- With any two character widths fitting together inside `maxW`, two loop
iterations per character always suffice: at most one pull-back can fire, after
which the re-seeded line (one pulled character) plus the boundary character
fits. -/
theorem wrapCharLoop_two_isSome (w : Style → Char → Nat) (maxW : Nat) (st : Style) (c : Char)
    (hw : ∀ st1 c1 st2 c2, w st1 c1 + w st2 c2 ≤ maxW) (s : WrapState) :
    (wrapCharLoop w maxW st c 2 s).isSome = true := by
  rw [show (2 : Nat) = 1 + 1 from rfl, wrapCharLoop_succ]
  by_cases h1 : s.curW + w st c > maxW
  · rw [if_pos h1]
    by_cases h2 : c ∈ no_start_chars ∧ s.cur ≠ []
    · rw [if_pos h2]
      rcases h3 : pullBackAux s.cur with _ | ⟨l, p, pst⟩
      · simp
      · show (wrapCharLoop w maxW st c 1
          ⟨s.lines ++ [l], [⟨[p], pst⟩], w pst p⟩).isSome = true
        rw [show (1 : Nat) = 0 + 1 from rfl, wrapCharLoop_succ]
        have hle : ¬ ((⟨s.lines ++ [l], [⟨[p], pst⟩], w pst p⟩ : WrapState).curW + w st c > maxW) := by
          simp only [gt_iff_lt, not_lt]
          exact hw pst p st c
        rw [if_neg hle]
        simp
    · rw [if_neg h2]
      simp
  · rw [if_neg h1]
    simp

theorem wrapText_two_isSome (w : Style → Char → Nat) (maxW : Nat) (st : Style)
    (hw : ∀ st1 c1 st2 c2, w st1 c1 + w st2 c2 ≤ maxW) :
    ∀ (cs : List Char) (s : WrapState), (wrapText w maxW 2 st cs s).isSome = true
  | [], s => rfl
  | c :: cs, s => by
    simp only [wrapText]
    have h1 := wrapCharLoop_two_isSome w maxW st c hw s
    rcases h : wrapCharLoop w maxW st c 2 s with _ | s1
    · rw [h] at h1; cases h1
    · exact wrapText_two_isSome w maxW st hw cs s1

theorem wrapRuns_two_isSome (w : Style → Char → Nat) (maxW : Nat)
    (hw : ∀ st1 c1 st2 c2, w st1 c1 + w st2 c2 ≤ maxW) :
    ∀ (rs : List Run) (s : WrapState), (wrapRuns w maxW 2 rs s).isSome = true
  | [], s => rfl
  | r :: rs, s => by
    simp only [wrapRuns]
    have h1 := wrapText_two_isSome w maxW r.style hw r.text s
    rcases h : wrapText w maxW 2 r.style r.text s with _ | s1
    · rw [h] at h1; cases h1
    · exact wrapRuns_two_isSome w maxW hw rs s1

/-- The repeating loop state: the line holds the single one-character run "A"
of width 6, a comma (forbidden, width 6) is being processed and `maxW = 10`.
Every iteration pulls `A` back off the line, emits a line with an emptied run,
re-seeds the current line with `A` at the same width, and re-processes the
comma — forever. -/
theorem c4LoopState : ∀ (fuel : Nat) (lines : List (List Run)),
    wrapCharLoop wSix 10 Style.normal ',' fuel ⟨lines, [⟨['A'], Style.normal⟩], 6⟩ = none
  | 0, lines => rfl
  | fuel + 1, lines => by
    rw [wrapCharLoop_succ]
    have hc1 : (⟨lines, [⟨['A'], Style.normal⟩], 6⟩ : WrapState).curW +
        wSix Style.normal ',' > 10 := by
      show 6 + wSix Style.normal ',' > 10
      decide
    have hc2 : ',' ∈ no_start_chars ∧ (⟨lines, [⟨['A'], Style.normal⟩], 6⟩ : WrapState).cur ≠ [] := by
      refine ⟨by decide, ?_⟩
      show [(⟨['A'], Style.normal⟩ : Run)] ≠ []
      simp
    rw [if_pos hc1, if_pos hc2]
    rw [show pullBackAux (⟨lines, [⟨['A'], Style.normal⟩], 6⟩ : WrapState).cur =
      some ([⟨[], Style.normal⟩], 'A', Style.normal) from rfl]
    exact c4LoopState fuel (lines ++ [[⟨[], Style.normal⟩]])

/-- `wrap_line` on the single normal run "A," with every character 6 wide and
`max_content_width = 10` never returns: the comma triggers the pull-back, the
pull-back re-creates the same one-character line at the same width, and the
comma is re-processed forever. -/
theorem c4Diverges : wrapDiverges wSix 10 [⟨['A', ','], Style.normal⟩] := by
  intro fuel
  cases fuel with
  | zero => rfl
  | succ f =>
    have hA : wrapCharLoop wSix 10 Style.normal 'A' (f + 1) ⟨[], [], 0⟩ =
        some ⟨[], [⟨['A'], Style.normal⟩], 6⟩ := by
      rw [wrapCharLoop_succ, if_neg (by decide)]
      rfl
    have hT : wrapText wSix 10 (f + 1) Style.normal ['A', ','] ⟨[], [], 0⟩ = none := by
      show (match wrapCharLoop wSix 10 Style.normal 'A' (f + 1) ⟨[], [], 0⟩ with
        | none => none
        | some s1 => wrapText wSix 10 (f + 1) Style.normal [','] s1) = none
      rw [hA]
      show wrapText wSix 10 (f + 1) Style.normal [','] ⟨[], [⟨['A'], Style.normal⟩], 6⟩ = none
      show (match wrapCharLoop wSix 10 Style.normal ','
          (f + 1) ⟨[], [⟨['A'], Style.normal⟩], 6⟩ with
        | none => none
        | some s1 => wrapText wSix 10 (f + 1) Style.normal [] s1) = none
      rw [c4LoopState (f + 1) []]
    have hR : wrapRuns wSix 10 (f + 1) [⟨['A', ','], Style.normal⟩] ⟨[], [], 0⟩ = none := by
      show (match wrapText wSix 10 (f + 1) Style.normal ['A', ','] ⟨[], [], 0⟩ with
        | none => none
        | some s1 => wrapRuns wSix 10 (f + 1) [] s1) = none
      rw [hT]
    unfold wrap_line
    rw [show mergeRuns [⟨['A', ','], Style.normal⟩] = [⟨['A', ','], Style.normal⟩] from rfl]
    rw [hR]

theorem lineChars_cons (r : Run) (rs : List Run) :
    lineChars (r :: rs) = r.text ++ lineChars rs := by
  simp [lineChars]

theorem lineChars_addChar (st : Style) (c : Char) (l : List Run) :
    lineChars (addChar st c l) = lineChars l ++ [c] := by
  rw [lineChars_eq_map_snd, addChar_schars, List.map_append, ← lineChars_eq_map_snd]
  rfl

theorem lineChars_pull {cur l : List Run} {p : Char} {pst : Style}
    (h : pullBackAux cur = some (l, p, pst)) :
    lineChars cur = lineChars l ++ [p] := by
  rw [lineChars_eq_map_snd cur, ← pullBackAux_schars h, List.map_append,
    ← lineChars_eq_map_snd]
  rfl

theorem lineChars_ne_nil {l : List Run} (h1 : l ≠ []) (h2 : ∀ r ∈ l, r.text ≠ []) :
    lineChars l ≠ [] := by
  cases l with
  | nil => exact absurd rfl h1
  | cons r rs =>
    intro hcon
    rw [lineChars_cons] at hcon
    rcases List.append_eq_nil.mp hcon with ⟨h3, _⟩
    exact h2 r (by simp) h3

theorem drop_one_append {α : Type} (l : List α) (x : α) (h : l ≠ []) :
    (l ++ [x]).drop 1 = l.drop 1 ++ [x] := by
  cases l with
  | nil => exact absurd rfl h
  | cons a t => simp

theorem goodStart_single {c : Char} {st : Style} (h : c ∉ no_start_chars) :
    goodStart [⟨[c], st⟩] := by
  intro c2 hc2
  rw [show lineChars [(⟨[c], st⟩ : Run)] = [c] from by simp [lineChars]] at hc2
  simp at hc2
  exact hc2 ▸ h

theorem goodStart_shrink {cur l : List Run} {p : Char}
    (hchars : lineChars cur = lineChars l ++ [p]) (hg : goodStart cur) : goodStart l := by
  intro c hc
  apply hg
  rcases hl : lineChars l with _ | ⟨a, t⟩
  · rw [hl] at hc
    cases hc
  · rw [hl] at hc
    simp at hc
    rw [hchars, hl, hc]
    rfl

theorem goodStart_addChar {st : Style} {c : Char} {cur : List Run} (h1 : cur ≠ [])
    (h2 : ∀ r ∈ cur, r.text ≠ []) (hg : goodStart cur) : goodStart (addChar st c cur) := by
  intro c2 hc2
  apply hg
  rw [lineChars_addChar] at hc2
  rcases hl : lineChars cur with _ | ⟨a, t⟩
  · exact absurd hl (lineChars_ne_nil h1 h2)
  · rw [hl] at hc2
    simpa using hc2

theorem mergeRuns_lineChars (runs : List Run) :
    lineChars (mergeRuns runs) = lineChars runs := by
  rw [lineChars_eq_map_snd, mergeRuns_schars, ← lineChars_eq_map_snd]

theorem wrapCharLoop_inv (w : Style → Char → Nat) (maxW : Nat) (st : Style) (c : Char)
    (hw : ∀ st2 c2, w st2 c2 ≤ maxW) :
    ∀ (fuel : Nat) (s s' : WrapState),
      wrapCharLoop w maxW st c fuel s = some s' →
      WrapInv s →
      (∀ p, (lineChars s.cur).getLast? = some p → okPair p c) →
      WrapInv s'
  | 0, s, s', h => by cases h
  | fuel + 1, s, s', h => by
    intro hinv hpair
    obtain ⟨hc, hdrop, hgood, hne, hz⟩ := hinv
    rw [wrapCharLoop_succ] at h
    by_cases h1 : s.curW + w st c > maxW
    · rw [if_pos h1] at h
      by_cases h2 : c ∈ no_start_chars ∧ s.cur ≠ []
      · rw [if_pos h2] at h
        rcases h3 : pullBackAux s.cur with _ | ⟨l, p, pst⟩
        · exact absurd h3 (pullBackAux_isSome h2.2 hc)
        · rw [h3] at h
          have hchars := lineChars_pull h3
          have hlast : (lineChars s.cur).getLast? = some p := by
            rw [hchars]
            simp
          have hok := hpair p hlast
          have hp : p ∉ no_start_chars := fun hmem => hok ⟨hmem, h2.1⟩
          apply wrapCharLoop_inv w maxW st c hw fuel _ s' h
          · refine ⟨?_, ?_, ?_, ?_, ?_⟩
            · intro r hr
              simp at hr
              rw [hr]
              simp
            · intro l2 hl2
              by_cases hln : s.lines = []
              · rw [hln] at hl2
                simp at hl2
              · rw [drop_one_append _ _ hln] at hl2
                rcases List.mem_append.mp hl2 with hm | hm
                · exact hdrop l2 hm
                · simp at hm
                  rw [hm]
                  exact goodStart_shrink hchars (hgood hln)
            · intro _
              exact goodStart_single hp
            · intro _
              simp
            · intro hcon
              cases hcon
          · intro p2 hp2
            rw [show lineChars [(⟨[p], pst⟩ : Run)] = [p] from by simp [lineChars]] at hp2
            simp at hp2
            exact hp2 ▸ hok
      · rw [if_neg h2] at h
        cases h
        by_cases hcur : s.cur = []
        · exfalso
          have h5 := hz hcur
          have h6 := hw st c
          omega
        · have hcns : c ∉ no_start_chars := fun hmem => h2 ⟨hmem, hcur⟩
          refine ⟨?_, ?_, ?_, ?_, ?_⟩
          · intro r hr
            simp only [placeChar, addChar_nil] at hr
            simp at hr
            rw [hr]
            simp
          · intro l2 hl2
            simp only [placeChar] at hl2
            by_cases hln : s.lines = []
            · rw [hln] at hl2
              simp at hl2
            · rw [drop_one_append _ _ hln] at hl2
              rcases List.mem_append.mp hl2 with hm | hm
              · exact hdrop l2 hm
              · simp at hm
                rw [hm]
                exact hgood hln
          · intro _
            show goodStart (addChar st c [])
            rw [addChar_nil]
            exact goodStart_single hcns
          · intro _
            exact addChar_ne_nil st c []
          · intro hcon
            exact absurd hcon (addChar_ne_nil st c [])
    · rw [if_neg h1] at h
      cases h
      refine ⟨?_, ?_, ?_, ?_, ?_⟩
      · exact addChar_runs_ne_nil st c s.cur hc
      · simpa [placeChar] using hdrop
      · intro hln
        simp only [placeChar] at hln ⊢
        exact goodStart_addChar (hne hln) hc (hgood hln)
      · intro _
        exact addChar_ne_nil st c s.cur
      · intro hcon
        exact absurd hcon (addChar_ne_nil st c s.cur)

theorem wrapText_inv (w : Style → Char → Nat) (maxW fuel : Nat) (st : Style)
    (hw : ∀ st2 c2, w st2 c2 ≤ maxW) :
    ∀ (cs : List Char) (s s' : WrapState),
      wrapText w maxW fuel st cs s = some s' →
      WrapInv s →
      List.Chain' okPair (flatChars s ++ cs) →
      WrapInv s' ∧ flatChars s' = flatChars s ++ cs
  | [], s, s', h => by
    intro hinv hch
    cases h
    exact ⟨hinv, by simp⟩
  | c :: cs, s, s', h => by
    intro hinv hch
    simp only [wrapText] at h
    rcases h1 : wrapCharLoop w maxW st c fuel s with _ | s1
    · rw [h1] at h; cases h
    · rw [h1] at h
      have hflat := wrapCharLoop_flat w maxW st c fuel s s1 h1
      have hflatc : flatChars s1 = flatChars s ++ [c] := by
        simp [flatChars, hflat]
      have hpair : ∀ p, (lineChars s.cur).getLast? = some p → okPair p c := by
        intro p hp
        have hsplit : flatChars s =
            ((s.lines.map lineSChars).flatten).map Prod.snd ++ lineChars s.cur := by
          simp [flatChars, flatSChars, lineChars_eq_map_snd]
        have hlast : (flatChars s).getLast? = some p := by
          rw [hsplit, List.getLast?_append_of_ne_nil _ (by
            intro hcon
            rw [hcon] at hp
            cases hp)]
          exact hp
        rcases List.chain'_append.mp hch with ⟨_, _, hcr⟩
        exact hcr p hlast c (by simp)
      have hinv1 := wrapCharLoop_inv w maxW st c hw fuel s s1 h1 hinv hpair
      have hch1 : List.Chain' okPair (flatChars s1 ++ cs) := by
        rw [hflatc, List.append_assoc]
        exact hch
      rcases wrapText_inv w maxW fuel st hw cs s1 s' h hinv1 hch1 with ⟨hi, hf⟩
      refine ⟨hi, ?_⟩
      rw [hf, hflatc, List.append_assoc]
      rfl

theorem wrapRuns_inv (w : Style → Char → Nat) (maxW fuel : Nat)
    (hw : ∀ st2 c2, w st2 c2 ≤ maxW) :
    ∀ (rs : List Run) (s s' : WrapState),
      wrapRuns w maxW fuel rs s = some s' →
      WrapInv s →
      List.Chain' okPair (flatChars s ++ lineChars rs) →
      WrapInv s'
  | [], s, s', h => by
    intro hinv _
    cases h
    exact hinv
  | r :: rs, s, s', h => by
    intro hinv hch
    simp only [wrapRuns] at h
    rcases h1 : wrapText w maxW fuel r.style r.text s with _ | s1
    · rw [h1] at h; cases h
    · rw [h1] at h
      rw [lineChars_cons, ← List.append_assoc] at hch
      have hpre : List.Chain' okPair (flatChars s ++ r.text) :=
        (List.chain'_append.mp hch).1
      rcases wrapText_inv w maxW fuel r.style hw r.text s s1 h1 hinv hpre with ⟨hi1, hf1⟩
      apply wrapRuns_inv w maxW fuel hw rs s1 s' h hi1
      rw [hf1]
      exact hch

/-- Forbidden-leader property of `wrap_line`, under the hypotheses that every
character fits inside `maxW` and that the logical line contains no two adjacent
forbidden characters: every produced physical line except the first starts
with a non-forbidden character. -/
theorem wrapLineGoodStart (w : Style → Char → Nat) (maxW fuel : Nat) (runs : List Run)
    (ls : List (List Run)) (hw : ∀ st c, w st c ≤ maxW)
    (hchain : List.Chain' okPair (lineChars runs))
    (h : wrap_line w maxW fuel runs = some ls) :
    ∀ l ∈ ls.drop 1, goodStart l := by
  unfold wrap_line at h
  rcases h1 : wrapRuns w maxW fuel (mergeRuns runs) ⟨[], [], 0⟩ with _ | s
  · rw [h1] at h; cases h
  · rw [h1] at h
    cases h
    have hstart : WrapInv ⟨[], [], 0⟩ := by
      refine ⟨by simp, by simp, ?_, ?_, by simp⟩
      · intro hcon
        exact absurd rfl hcon
      · intro hcon
        exact absurd rfl hcon
    have hch0 : List.Chain' okPair (flatChars ⟨[], [], 0⟩ ++ lineChars (mergeRuns runs)) := by
      rw [show flatChars ⟨[], [], 0⟩ = [] from rfl, List.nil_append, mergeRuns_lineChars]
      exact hchain
    obtain ⟨hc, hdrop, hgood, hne, hz⟩ :=
      wrapRuns_inv w maxW fuel hw (mergeRuns runs) _ s h1 hstart hch0
    by_cases hcur : s.cur = []
    · rw [if_pos hcur]
      exact hdrop
    · rw [if_neg hcur]
      intro l2 hl2
      by_cases hln : s.lines = []
      · rw [hln] at hl2
        simp at hl2
      · rw [drop_one_append _ _ hln] at hl2
        rcases List.mem_append.mp hl2 with hm | hm
        · exact hdrop l2 hm
        · simp at hm
          rw [hm]
          exact hgood hln

theorem findBold_eq_none : ∀ {cs : List Char},
    hasDoubleStar cs = false → findBold cs = none := by
  intro cs
  induction cs with
  | nil => intro _; rfl
  | cons c rest ih =>
    intro h
    simp only [hasDoubleStar] at h
    by_cases hc : c = '*' ∧ rest.head? = some '*'
    · rw [if_pos hc] at h
      cases h
    · rw [if_neg hc] at h
      simp only [findBold]
      rw [if_neg hc, ih h]
      rfl

theorem hasDoubleStar_of_starts : ∀ {cs : List Char},
    startsWithStars cs = true → hasDoubleStar cs = true := by
  intro cs
  cases cs with
  | nil => intro h; cases h
  | cons c rest =>
    cases rest with
    | nil => intro h; cases h
    | cons c2 rest2 =>
      intro h
      simp only [startsWithStars, Bool.and_eq_true, decide_eq_true_eq] at h
      simp only [hasDoubleStar]
      rw [if_pos ⟨h.1, by simp [h.2]⟩]

theorem classifyPart_plain {cs : List Char} (hne : cs ≠ [])
    (hds : hasDoubleStar cs = false) :
    classifyPart cs = some ⟨cs, Style.normal⟩ := by
  unfold classifyPart
  rw [if_neg, if_neg hne]
  intro hcon
  have := hasDoubleStar_of_starts hcon.1
  rw [this] at hds
  cases hds

theorem parse_plain {cs : List Char} (hne : cs ≠ [])
    (hds : hasDoubleStar cs = false) :
    parse_line_to_runs cs = [⟨cs, Style.normal⟩] := by
  unfold parse_line_to_runs splitParts
  rw [show splitPartsAux (cs.length + 1) cs = [cs] from by
    simp only [splitPartsAux]
    rw [findBold_eq_none hds]]
  rw [show List.filterMap classifyPart [cs] = [⟨cs, Style.normal⟩] from by
    rw [List.filterMap_cons, classifyPart_plain hne hds]
    rfl]

theorem sumW_cons (w : Style → Char → Nat) (st : Style) (c : Char) (cs : List Char) :
    sumW w st (c :: cs) = w st c + sumW w st cs := by
  simp [sumW]

theorem wrapText_fits (w : Style → Char → Nat) (maxW fuel : Nat) (st : Style) :
    ∀ (cs acc : List Char) (lines : List (List Run)) (cw : Nat),
      cw + sumW w st cs ≤ maxW →
      wrapText w maxW (fuel + 1) st cs ⟨lines, [⟨acc, st⟩], cw⟩ =
        some ⟨lines, [⟨acc ++ cs, st⟩], cw + sumW w st cs⟩
  | [], acc, lines, cw, h => by
    simp [wrapText, sumW]
  | c :: cs, acc, lines, cw, h => by
    rw [sumW_cons] at h
    have h1 : ¬ ((⟨lines, [⟨acc, st⟩], cw⟩ : WrapState).curW + w st c > maxW) := by
      show ¬ (cw + w st c > maxW)
      omega
    have hA : wrapCharLoop w maxW st c (fuel + 1) ⟨lines, [⟨acc, st⟩], cw⟩ =
        some ⟨lines, [⟨acc ++ [c], st⟩], cw + w st c⟩ := by
      rw [wrapCharLoop_succ, if_neg h1]
      show some (⟨lines, addChar st c [⟨acc, st⟩], cw + w st c⟩ : WrapState) = _
      rw [addChar_singleton, if_pos rfl]
    show (match wrapCharLoop w maxW st c (fuel + 1) ⟨lines, [⟨acc, st⟩], cw⟩ with
      | none => none
      | some s1 => wrapText w maxW (fuel + 1) st cs s1) =
      some ⟨lines, [⟨acc ++ c :: cs, st⟩], cw + (w st c + sumW w st cs)⟩
    rw [hA]
    show wrapText w maxW (fuel + 1) st cs ⟨lines, [⟨acc ++ [c], st⟩], cw + w st c⟩ = _
    rw [wrapText_fits w maxW fuel st cs (acc ++ [c]) lines (cw + w st c) (by omega)]
    have e1 : (acc ++ [c]) ++ cs = acc ++ c :: cs := by simp
    have e2 : cw + w st c + sumW w st cs = cw + (w st c + sumW w st cs) := by omega
    rw [e1, e2]

theorem wrap_line_single (w : Style → Char → Nat) (maxW fuel : Nat) (cs : List Char)
    (hne : cs ≠ []) (hfits : sumW w Style.normal cs ≤ maxW) :
    wrap_line w maxW (fuel + 1) [⟨cs, Style.normal⟩] = some [[⟨cs, Style.normal⟩]] := by
  unfold wrap_line
  rw [show mergeRuns [⟨cs, Style.normal⟩] = [⟨cs, Style.normal⟩] from rfl]
  cases cs with
  | nil => exact absurd rfl hne
  | cons c cs2 =>
    rw [sumW_cons] at hfits
    have h1 : ¬ ((⟨[], [], 0⟩ : WrapState).curW + w Style.normal c > maxW) := by
      show ¬ (0 + w Style.normal c > maxW)
      omega
    have hA : wrapCharLoop w maxW Style.normal c (fuel + 1) ⟨[], [], 0⟩ =
        some ⟨[], [⟨[c], Style.normal⟩], 0 + w Style.normal c⟩ := by
      rw [wrapCharLoop_succ, if_neg h1]
      rfl
    have hT : wrapText w maxW (fuel + 1) Style.normal (c :: cs2) ⟨[], [], 0⟩ =
        some ⟨[], [⟨c :: cs2, Style.normal⟩],
          0 + w Style.normal c + sumW w Style.normal cs2⟩ := by
      show (match wrapCharLoop w maxW Style.normal c (fuel + 1) ⟨[], [], 0⟩ with
        | none => none
        | some s1 => wrapText w maxW (fuel + 1) Style.normal cs2 s1) = _
      rw [hA]
      show wrapText w maxW (fuel + 1) Style.normal cs2
        ⟨[], [⟨[c], Style.normal⟩], 0 + w Style.normal c⟩ = _
      rw [wrapText_fits w maxW fuel Style.normal cs2 [c] [] (0 + w Style.normal c) (by omega)]
      rfl
    have hR : wrapRuns w maxW (fuel + 1) [⟨c :: cs2, Style.normal⟩] ⟨[], [], 0⟩ =
        some ⟨[], [⟨c :: cs2, Style.normal⟩],
          0 + w Style.normal c + sumW w Style.normal cs2⟩ := by
      show (match wrapText w maxW (fuel + 1) Style.normal (c :: cs2) ⟨[], [], 0⟩ with
        | none => none
        | some s1 => wrapRuns w maxW (fuel + 1) [] s1) = _
      rw [hT]
      rfl
    show (match wrapRuns w maxW (fuel + 1) [⟨c :: cs2, Style.normal⟩] ⟨[], [], 0⟩ with
      | none => none
      | some s => some (if s.cur = [] then s.lines else s.lines ++ [s.cur])) =
      some [[⟨c :: cs2, Style.normal⟩]]
    rw [hR]
    show some (if ([⟨c :: cs2, Style.normal⟩] : List Run) = []
      then ([] : List (List Run)) else [] ++ [[⟨c :: cs2, Style.normal⟩]]) =
      some [[⟨c :: cs2, Style.normal⟩]]
    rw [if_neg (by simp)]
    rfl

/-! ### Per-line and per-document plumbing -/

theorem classify_plain {line : List Char} (hne : line ≠ [])
    (hds : hasDoubleStar line = false)
    (hdiv : ¬(3 ≤ (pyStrip line).length ∧ (pyStrip line).all isDash = true)) :
    classify_line line = PLine.content [⟨line, Style.normal⟩] := by
  unfold classify_line
  rw [if_neg (fun hcon => hne hcon.2), if_neg hdiv, parse_plain hne hds]

theorem processOne_plain (w : Style → Char → Nat) (maxW fuel : Nat) {line : List Char}
    (hne : line ≠ []) (hds : hasDoubleStar line = false)
    (hdiv : ¬(3 ≤ (pyStrip line).length ∧ (pyStrip line).all isDash = true))
    (hfits : sumW w Style.normal line ≤ maxW) :
    processOne w maxW (fuel + 1) line = some [PLine.content [⟨line, Style.normal⟩]] := by
  unfold processOne
  rw [classify_plain hne hds hdiv]
  show (match wrap_line w maxW (fuel + 1) [⟨line, Style.normal⟩] with
    | none => none
    | some ls => some (ls.map PLine.content)) = _
  rw [wrap_line_single w maxW fuel line hne hfits]
  rfl

theorem processList_plain (w : Style → Char → Nat) (maxW fuel : Nat) :
    ∀ (lines : List (List Char)),
      (∀ l ∈ lines, l ≠ [] ∧ hasDoubleStar l = false ∧
        ¬(3 ≤ (pyStrip l).length ∧ (pyStrip l).all isDash = true) ∧
        sumW w Style.normal l ≤ maxW) →
      processList w maxW (fuel + 1) lines =
        some (lines.map fun l => PLine.content [⟨l, Style.normal⟩])
  | [], _ => rfl
  | l :: ls, h => by
    obtain ⟨h1, h2, h3, h4⟩ := h l (by simp)
    simp only [processList]
    rw [processOne_plain w maxW fuel h1 h2 h3 h4,
      processList_plain w maxW fuel ls (fun x hx => h x (by simp [hx]))]
    rfl

/-! ### The two height passes agree -/

theorem layout_draw_rows_eq (Hf : Style → List Char → Nat) (sp mg : Nat) :
    ∀ (prev : Option PLine) (pls : List PLine),
      totalHeightRows Hf sp mg prev pls = drawAdvanceRows Hf sp mg prev pls
  | prev, [] => rfl
  | prev, l :: rest => by
    simp only [totalHeightRows, drawAdvanceRows]
    rw [layout_draw_rows_eq Hf sp mg (some l) rest]
    cases l with
    | empty => rfl
    | divider => ring
    | content rs => rfl

/-! ### Claims -/

/-- Claim C1: the spec says that for input "A\n------\nB" the accumulated
content height is height(A) + height(rule) + height(B) + 2*divider_margin plus
ONE text_line_spacing (the spacing before the divider suppressed because the
previous line is not blank).  With uniform glyph height 10, spacing 5 and
margin 7 the claimed value is 49.  src/main.py computes 54 instead: its
predecessor test requires the previous entry to be a placeholder dict, so a
content predecessor never triggers the suppression.  The parallel
implementation in src/utils/image_utils.py (`_calculate_layout`) computes the
claimed 49, confirming the spec's rule as the intent. -/
theorem spec_c1_divider_spacing :
    processedLines wOne 100 1 c1Input = some c1Lines ∧
    totalHeight hTen 5 7 c1Lines = 54 ∧
    totalHeightUtils hTen 5 7 c1Lines = 10 + 10 + 10 + 2 * 7 + 5 ∧
    ((10 + 10 + 10 + 2 * 7 + 5 : Int) ≠ 54) := by
  refine ⟨by decide, by decide, by decide, by decide⟩

/-- Claim C2: for every physical-line sequence, height model and spacing
parameters, the total height accumulated by the layout pass of src/main.py
lines 272-286 equals the sum of the y-advances applied by the drawing pass of
lines 303-327 — the two passes agree exactly. -/
theorem spec_c2_two_pass_agreement (Hf : Style → List Char → Nat) (sp mg : Nat)
    (pls : List PLine) : totalHeight Hf sp mg pls = drawAdvance Hf sp mg pls :=
  layout_draw_rows_eq Hf sp mg none pls

/-- Claim C3, counterexample to the claim as stated: in the document "A\n,B"
the second Content physical line — which does not open the document — starts
with the comma, a member of NO_START_CHARS.  The wrapper never moves a
character that opens its own logical line. -/
theorem spec_c3_counterexample :
    processedLines wOne 100 1 c3Input =
      some [PLine.content [⟨['A'], Style.normal⟩],
            PLine.content [⟨[',', 'B'], Style.normal⟩]] ∧
    (lineChars [(⟨[',', 'B'], Style.normal⟩ : Run)]).head? = some ',' ∧
    ',' ∈ no_start_chars := by
  refine ⟨by decide, by decide, by decide⟩

/-- Claim C3 (amended): within one logical line, provided every character fits
inside max_content_width and no two adjacent characters of the line are both
forbidden, every Content physical line produced by wrap_line except the first
one of the logical line starts with a character outside NO_START_CHARS.  (The
exception for the first physical line is forced by lines that begin with a
forbidden character; the adjacency hypothesis is forced by the pull-back,
which moves exactly one character and may itself place a forbidden character
at the start of a line when two forbidden characters are adjacent.) -/
theorem spec_c3_forbidden_leader_amended (w : Style → Char → Nat) (maxW fuel : Nat)
    (runs : List Run) (ls : List (List Run))
    (hw : ∀ st c, w st c ≤ maxW)
    (hchain : List.Chain' okPair (lineChars runs))
    (h : wrap_line w maxW fuel runs = some ls) :
    ∀ l ∈ ls.drop 1, ∀ c, (lineChars l).head? = some c → c ∉ no_start_chars := by
  intro l hl
  exact wrapLineGoodStart w maxW fuel runs ls hw hchain h l hl

theorem spec_c3_witness : 'd' ∉ no_start_chars := by
  have h := spec_c3_forbidden_leader_amended wThree 10 1
    [⟨['a', 'b', 'c', 'd', 'e'], Style.normal⟩]
    [[⟨['a', 'b', 'c'], Style.normal⟩], [⟨['d', 'e'], Style.normal⟩]]
    (fun st c => by show (3 : Nat) ≤ 10; decide)
    (by
      show List.Chain' okPair ['a', 'b', 'c', 'd', 'e']
      simp only [List.chain'_cons, List.chain'_singleton, and_true]
      refine ⟨?_, ?_, ?_, ?_⟩ <;> decide)
    (by decide)
  exact h [⟨['d', 'e'], Style.normal⟩] (by simp) 'd' (by decide)

/-- Claim C4, counterexample to the claim as stated: the one-character
pull-back does NOT strictly reduce the remaining width budget.  On the single
normal run "A," with every character 6 wide and max_content_width 10, the
wrap loop never terminates: each iteration pulls 'A' back, emits a line whose
run has been emptied, re-seeds the current line with 'A' at the same width 6,
and re-processes the comma. -/
theorem spec_c4_counterexample : wrapDiverges wSix 10 [⟨['A', ','], Style.normal⟩] :=
  c4Diverges

/-- Claim C4 (amended): the wrapping loop terminates whenever any two
character widths fit together inside max_content_width (in particular at most
one pull-back per character, so two loop iterations of fuel per character
suffice); without such a bound the pull-back can loop forever, as the
counterexample shows. -/
theorem spec_c4_termination_amended (w : Style → Char → Nat) (maxW : Nat) (runs : List Run)
    (hw : ∀ st1 c1 st2 c2, w st1 c1 + w st2 c2 ≤ maxW) :
    (wrap_line w maxW 2 runs).isSome = true := by
  unfold wrap_line
  have h := wrapRuns_two_isSome w maxW hw (mergeRuns runs) ⟨[], [], 0⟩
  rcases h1 : wrapRuns w maxW 2 (mergeRuns runs) ⟨[], [], 0⟩ with _ | s
  · rw [h1] at h; cases h
  · rfl

theorem spec_c4_witness : (wrap_line wOne 2 2 [⟨['a', 'b', 'c'], Style.normal⟩]).isSome = true :=
  spec_c4_termination_amended wOne 2 [⟨['a', 'b', 'c'], Style.normal⟩]
    (fun _ _ _ _ => by show (1 : Nat) + 1 ≤ 2; decide)

/-- Claim C5, counterexample to the claim as stated: a character wider than
max_content_width is placed alone on a line whose width exceeds the bound
(width 6 against max_content_width 5). -/
theorem spec_c5_counterexample :
    wrap_line wSix 5 1 [⟨['A'], Style.normal⟩] = some [[], [⟨['A'], Style.normal⟩]] ∧
    lineWidth wSix [⟨['A'], Style.normal⟩] = 6 ∧ ¬(6 ≤ 5) := by
  refine ⟨by decide, by decide, by decide⟩

/-- Claim C5 (amended): provided every character width is at most
max_content_width, every physical line produced by wrap_line has summed run
widths at most max_content_width.  (The hypothesis is forced by the
single-oversized-character edge case the spec itself describes.) -/
theorem spec_c5_wrap_width_bound_amended (w : Style → Char → Nat) (maxW fuel : Nat)
    (runs : List Run) (ls : List (List Run))
    (hw : ∀ st c, w st c ≤ maxW)
    (h : wrap_line w maxW fuel runs = some ls) :
    ∀ l ∈ ls, lineWidth w l ≤ maxW := by
  unfold wrap_line at h
  rcases h1 : wrapRuns w maxW fuel (mergeRuns runs) ⟨[], [], 0⟩ with _ | s
  · rw [h1] at h; cases h
  · rw [h1] at h
    cases h
    obtain ⟨hW, hB, hL⟩ := wrapRuns_width w maxW fuel hw (mergeRuns runs) _ s h1 rfl
      (Nat.zero_le _) (by simp)
    intro l hl
    by_cases hcur : s.cur = []
    · rw [if_pos hcur] at hl
      exact hL l hl
    · rw [if_neg hcur] at hl
      rcases List.mem_append.mp hl with hm | hm
      · exact hL l hm
      · simp at hm
        rw [hm, ← hW]
        exact hB

theorem spec_c5_witness : lineWidth wOne [⟨['a', 'b'], Style.normal⟩] ≤ 10 :=
  spec_c5_wrap_width_bound_amended wOne 10 1 [⟨['a', 'b'], Style.normal⟩]
    [[⟨['a', 'b'], Style.normal⟩]] (fun _ _ => by show (1 : Nat) ≤ 10; decide) (by decide)
    [⟨['a', 'b'], Style.normal⟩] (by simp)

/-- Claim C6, counterexample to the claim as stated: wrapping the parsed line
"A**B**," with every character 4 wide and max_content_width 8 emits a first
physical line containing the run whose text was emptied by the pull-back (the
pulled bold run "B" had exactly one character). -/
theorem spec_c6_counterexample :
    wrap_line wFour 8 5 (parse_line_to_runs ['A', '*', '*', 'B', '*', '*', ',']) =
      some [[⟨['A'], Style.normal⟩, ⟨[], Style.bold⟩],
            [⟨['B'], Style.bold⟩, ⟨[','], Style.normal⟩]] ∧
    (⟨[], Style.bold⟩ : Run) ∈ [(⟨['A'], Style.normal⟩ : Run), ⟨[], Style.bold⟩] ∧
    (⟨[], Style.bold⟩ : Run).text = [] := by
  refine ⟨by decide, by decide, rfl⟩

/-- Claim C6 (amended): every StyledRun produced by parse_line_to_runs has
non-empty text (empty runs are filtered at parse time).  The wrapper however
can emit a physical line containing an empty-text run when the pull-back
removes the only character of the line's last non-empty run, as the
counterexample shows. -/
theorem spec_c6_nonempty_runs_amended (cs : List Char) :
    ∀ r ∈ parse_line_to_runs cs, r.text ≠ [] := by
  intro r hr
  unfold parse_line_to_runs at hr
  rcases List.mem_filterMap.mp hr with ⟨p, _, hp⟩
  unfold classifyPart at hp
  by_cases h1 : startsWithStars p ∧ endsWithStars p
  · rw [if_pos h1] at hp
    by_cases h2 : ((p.drop 2).dropLast).dropLast = []
    · rw [if_pos h2] at hp
      cases hp
    · rw [if_neg h2] at hp
      cases hp
      exact h2
  · rw [if_neg h1] at hp
    by_cases h3 : p = []
    · rw [if_pos h3] at hp
      cases hp
    · rw [if_neg h3] at hp
      cases hp
      exact h3

theorem spec_c6_witness : (⟨['A'], Style.normal⟩ : Run).text ≠ [] :=
  spec_c6_nonempty_runs_amended ['A'] ⟨['A'], Style.normal⟩ (by decide)

/-- Claim C7: the content line "**A**B**C**" parses to exactly
[Bold "A", Normal "B", Bold "C"], with delimiter pairs matched left-to-right
and non-overlapping; a lone or unmatched delimiter is kept as literal text
(parse_line_to_runs is a total function — no error path exists). -/
theorem spec_c7_bold_marker_parsing :
    parse_line_to_runs ['*', '*', 'A', '*', '*', 'B', '*', '*', 'C', '*', '*'] =
      [⟨['A'], Style.bold⟩, ⟨['B'], Style.normal⟩, ⟨['C'], Style.bold⟩] ∧
    parse_line_to_runs ['A', '*', '*', 'B'] = [⟨['A', '*', '*', 'B'], Style.normal⟩] ∧
    parse_line_to_runs ['*', '*', 'X'] = [⟨['*', '*', 'X'], Style.normal⟩] := by
  refine ⟨by decide, by decide, by decide⟩

/-- Claim C8: a logical line classifies as Divider iff its
whitespace-trimmed form has length at least 3 and consists solely of '-' and
'—'; "---" is a Divider while "--" is Content with the single literal run
"--". -/
theorem spec_c8_divider_classification :
    (∀ line : List Char, classify_line line = PLine.divider ↔
      (3 ≤ (pyStrip line).length ∧ (pyStrip line).all isDash = true)) ∧
    classify_line ['-', '-', '-'] = PLine.divider ∧
    classify_line ['-', '-'] = PLine.content [⟨['-', '-'], Style.normal⟩] := by
  refine ⟨?_, by decide, by decide⟩
  intro line
  unfold classify_line
  by_cases h1 : pyStrip line = [] ∧ line = []
  · rw [if_pos h1]
    constructor
    · intro hcon
      cases hcon
    · intro hcon
      rw [h1.1] at hcon
      simp at hcon
  · rw [if_neg h1]
    by_cases h2 : 3 ≤ (pyStrip line).length ∧ (pyStrip line).all isDash = true
    · rw [if_pos h2]
      exact ⟨fun _ => h2, fun _ => rfl⟩
    · rw [if_neg h2]
      constructor
      · intro hcon
        cases hcon
      · intro hcon
        exact absurd hcon h2

/-- Claim C9: a text with no "**", no blank lines, no divider lines, in which
every logical line's summed width is strictly under max_content_width,
produces exactly one Content physical line per logical line, holding a single
Normal run whose text is the original line. -/
theorem spec_c9_plain_round_trip (w : Style → Char → Nat) (maxW fuel : Nat)
    (text : List Char)
    (h : ∀ l ∈ splitNL text, l ≠ [] ∧ hasDoubleStar l = false ∧
      ¬(3 ≤ (pyStrip l).length ∧ (pyStrip l).all isDash = true) ∧
      sumW w Style.normal l < maxW) :
    processedLines w maxW (fuel + 1) text =
      some ((splitNL text).map fun l => PLine.content [⟨l, Style.normal⟩]) := by
  unfold processedLines
  exact processList_plain w maxW fuel (splitNL text)
    (fun l hl => ⟨(h l hl).1, (h l hl).2.1, (h l hl).2.2.1, Nat.le_of_lt (h l hl).2.2.2⟩)

theorem spec_c9_witness :
    processedLines wOne 10 (0 + 1) ['A', 'B', '\n', 'C'] =
      some ((splitNL ['A', 'B', '\n', 'C']).map fun l =>
        PLine.content [⟨l, Style.normal⟩]) :=
  spec_c9_plain_round_trip wOne 10 0 ['A', 'B', '\n', 'C'] (by decide)

theorem flatten_lineChars_eq (ls : List (List Run)) :
    (ls.map lineChars).flatten = ((ls.map lineSChars).flatten).map Prod.snd := by
  induction ls with
  | nil => rfl
  | cons l rest ih => simp [lineChars_eq_map_snd, ih]

/-- Claim C10: wrapping conserves the character stream — the concatenation of
the run texts of the physical lines returned by wrap_line equals the
concatenation of the input runs' texts, for every run sequence and width
assignment on which the loop returns. -/
theorem spec_c10_character_conservation (w : Style → Char → Nat) (maxW fuel : Nat)
    (runs : List Run) (ls : List (List Run)) (h : wrap_line w maxW fuel runs = some ls) :
    (ls.map lineChars).flatten = lineChars runs := by
  have h2 := wrap_line_schars w maxW fuel runs ls h
  rw [lineChars_eq_map_snd runs, ← h2, flatten_lineChars_eq]

theorem spec_c10_witness :
    ([[⟨['a', ','], Style.normal⟩]].map lineChars).flatten =
      lineChars [⟨['a', ','], Style.normal⟩] :=
  spec_c10_character_conservation wOne 10 1 [⟨['a', ','], Style.normal⟩]
    [[⟨['a', ','], Style.normal⟩]] (by decide)
